import Mathlib

/-!
Verification of the MiBiS&XOR TRNG post-processing pipeline.

Shallow embedding of the repository's Python sources:
  * `mibis_xor.py`   — `MiBiSXOR`: bisection mixing and XOR compression;
  * `main.py`        — `TrngGenerator`: batch orchestration loop and
                        SHA3-based whitening;
  * `file_operations.py` — MSB-first bit packing and unpacking.

Bits are modelled as natural numbers (the code stores them in uint8 cells
and only ever produces 0/1 values).  The SHA3-256 primitive comes from
Python's `hashlib`, outside the repository; it is modelled as a parameter
`hash` together with the assumption that every digest is 32 bytes long.
-/

namespace TrngMibis

/-- `MiBiSXOR._calculate_mixing_steps`: for `num_bits <= 1` return 1,
otherwise `floor(log2(num_bits - 1) + 1)`. -/
def calculate_mixing_steps (num_bits : Nat) : Nat :=
  if num_bits ≤ 1 then 1 else Nat.log2 (num_bits - 1) + 1

/-- `occupied_positions.sort()`: sorting a list of naturals. -/
def sortNat (l : List Nat) : List Nat :=
  List.insertionSort (· ≤ ·) l

/-- One round of `MiBiSXOR._mix_bits` (the inner `for i in
range(len(occupied_positions) - 1)` loop): walk the adjacent pairs of the
occupied-position list, and at each midpoint that currently holds value 0
place the next input bit if any input remains.  Returns the updated
buffer, the updated input index, and the list of newly filled positions
(`new_positions`). -/
def mix_round (input : List Nat) : List Nat → Nat → List Nat → List Nat × Nat × List Nat
  | buf, idx, l :: r :: rest =>
    let mid := (l + r) / 2
    if idx < input.length ∧ buf.getD mid 0 = 0 then
      let res := mix_round input (buf.set mid (input.getD idx 0)) (idx + 1) (r :: rest)
      (res.1, res.2.1, mid :: res.2.2)
    else
      mix_round input buf idx (r :: rest)
  | buf, idx, _ => (buf, idx, [])

/-- The outer `for step in range(2, steps + 1)` loop of
`MiBiSXOR._mix_bits`, with fuel `steps - 1`: run a round, merge the newly
occupied positions into the sorted occupied list, and stop early once all
input bits have been consumed. -/
def mix_rounds (input : List Nat) : Nat → List Nat → Nat → List Nat → List Nat
  | 0, buf, _, _ => buf
  | n + 1, buf, idx, occ =>
    let res := mix_round input buf idx occ
    if input.length ≤ res.2.1 then res.1
    else mix_rounds input n res.1 res.2.1 (sortNat (occ ++ res.2.2))

/-- Instrumented variant of `mix_rounds` that additionally records, for
each executed round, the positions newly filled in that round
(`new_positions`) and the occupied-position list at the start of the
round.  Used to state the filled-position invariants. -/
def mix_rounds_traced (input : List Nat) :
    Nat → List Nat → Nat → List Nat → List Nat × List (List Nat) × List (List Nat)
  | 0, buf, _, _ => (buf, [], [])
  | n + 1, buf, idx, occ =>
    let res := mix_round input buf idx occ
    if input.length ≤ res.2.1 then (res.1, [res.2.2], [occ])
    else
      let rec2 := mix_rounds_traced input n res.1 res.2.1 (sortNat (occ ++ res.2.2))
      (rec2.1, res.2.2 :: rec2.2.1, occ :: rec2.2.2)

/-- `MiBiSXOR._mix_bits`: buffer of size `2^(steps-1) + 1`; for
`steps = 1` place the first (up to) two bits at slots 0 and 1; otherwise
place them at slot 0 and the last slot and run the bisection rounds. -/
def mix_bits (input : List Nat) (steps : Nat) : List Nat :=
  let buffer_size := 2 ^ (steps - 1) + 1
  let buf0 := List.replicate buffer_size 0
  if steps = 1 then
    let b1 := if 0 < input.length then buf0.set 0 (input.getD 0 0) else buf0
    if 1 < input.length then b1.set 1 (input.getD 1 0) else b1
  else
    let b1 := if 0 < input.length then buf0.set 0 (input.getD 0 0) else buf0
    let b2 := if 1 < input.length then b1.set (buffer_size - 1) (input.getD 1 0) else b1
    mix_rounds input (steps - 1) b2 2 [0, buffer_size - 1]

/-- Instrumented variant of `mix_bits` built on `mix_rounds_traced`. -/
def mix_bits_traced (input : List Nat) (steps : Nat) :
    List Nat × List (List Nat) × List (List Nat) :=
  let buffer_size := 2 ^ (steps - 1) + 1
  let buf0 := List.replicate buffer_size 0
  if steps = 1 then
    let b1 := if 0 < input.length then buf0.set 0 (input.getD 0 0) else buf0
    (if 1 < input.length then b1.set 1 (input.getD 1 0) else b1, [], [])
  else
    let b1 := if 0 < input.length then buf0.set 0 (input.getD 0 0) else buf0
    let b2 := if 1 < input.length then b1.set (buffer_size - 1) (input.getD 1 0) else b1
    mix_rounds_traced input (steps - 1) b2 2 [0, buffer_size - 1]

/-- `MiBiSXOR._xor_adjacent_bits`: XOR disjoint adjacent pairs, dropping a
trailing unpaired element. -/
def xor_adjacent_bits : List Nat → List Nat
  | a :: b :: rest => (a ^^^ b) :: xor_adjacent_bits rest
  | _ => []

/-- `MiBiSXOR._process_with_single_mixer`. -/
def process_with_single_mixer (input : List Nat) : List Nat :=
  xor_adjacent_bits (mix_bits input (calculate_mixing_steps input.length))

/-- `MiBiSXOR._process_with_dual_mixers`: split at the midpoint, mix each
half with its own step count, XOR-compress each half, concatenate. -/
def process_with_dual_mixers (input : List Nat) : List Nat :=
  let midpoint := input.length / 2
  let bits1 := input.take midpoint
  let bits2 := input.drop midpoint
  let mixed1 := mix_bits bits1 (calculate_mixing_steps bits1.length)
  let mixed2 := mix_bits bits2 (calculate_mixing_steps bits2.length)
  xor_adjacent_bits mixed1 ++ xor_adjacent_bits mixed2

/-- `MiBiSXOR.process_bits`: optionally truncate the input to `max_bits`,
then run the configured mixer. -/
def process_bits (use_dual_mixers : Bool) (input_bits : List Nat) (max_bits : Option Nat) :
    List Nat :=
  let input := match max_bits with
    | some m => if m < input_bits.length then input_bits.take m else input_bits
    | none => input_bits
  if use_dual_mixers then process_with_dual_mixers input else process_with_single_mixer input

/-- The byte assembled by the inner loop of
`FileOperations.save_bits_to_file` for byte index `i`:
`byte_val |= bits[i*8+j] << (7-j)` for `j = 0..7`. -/
def bits_to_byte (padded : List Nat) (i : Nat) : Nat :=
  (List.range 8).foldl (fun acc j => acc ||| (padded.getD (i * 8 + j) 0 <<< (7 - j))) 0

/-- `FileOperations.save_bits_to_file`: zero-pad the bit list on the right
to a whole number of bytes, pack MSB-first, and return the packed bytes
together with the function's return value `len(bits)` — the length of the
PADDED bit array (the source rebinds `bits` before `return len(bits)`). -/
def save_bits_to_file (bits : List Nat) : List Nat × Nat :=
  let padding_bits := (8 - bits.length % 8) % 8
  let padded := bits ++ List.replicate padding_bits 0
  let byte_count := padded.length / 8
  ((List.range byte_count).map (fun i => bits_to_byte padded i), padded.length)

/-- The byte-to-bits conversion loop shared by
`FileOperations.load_bits_from_file` and `TrngGenerator._generate_and_save_sha3`:
for each byte, emit its 8 bits most-significant first. -/
def bytes_to_bits (data : List Nat) : List Nat :=
  (data.map (fun byte => (List.range 8).map (fun i => (byte >>> (7 - i)) &&& 1))).flatten

/-- `FileOperations.load_bits_from_file` (on in-memory bytes): unpack
MSB-first, optionally truncating to `max_bits`. -/
def load_bits_from_file (data : List Nat) (max_bits : Option Nat) : List Nat :=
  let bits := bytes_to_bits data
  match max_bits with
  | some m => if m < bits.length then bits.take m else bits
  | none => bits

/-- `i.to_bytes(4, byteorder='big')`: big-endian 4-byte encoding. -/
def int_to_bytes_be4 (n : Nat) : List Nat :=
  [n / 2 ^ 24 % 256, n / 2 ^ 16 % 256, n / 2 ^ 8 % 256, n % 256]

/-- The pure core of `TrngGenerator._generate_and_save_sha3`, parametrised
by the hash primitive (`hashlib.sha3_256(...).digest()`, a 32-byte
digest): hash salted chunks of the data, then salted copies of the whole
data until `ceil(target_bits/256)` digests exist, concatenate their bits
MSB-first, and truncate to exactly `target_bits`. -/
def generate_and_save_sha3 (hash : List Nat → List Nat) (data : List Nat)
    (target_bits : Nat) : List Nat :=
  let num_hashes_needed := (target_bits + 255) / 256
  let chunk_size := max (data.length / min num_hashes_needed 1000) 64
  let from_chunks := ((List.range (min num_hashes_needed (data.length / chunk_size))).map
    (fun i => bytes_to_bits
      (hash ((data.drop (i * chunk_size)).take chunk_size ++ int_to_bytes_be4 i)))).flatten
  let remaining := num_hashes_needed - min num_hashes_needed (data.length / chunk_size)
  let from_whole := ((List.range remaining).map
    (fun i => bytes_to_bits
      (hash (data ++ int_to_bytes_be4 (data.length / chunk_size + i))))).flatten
  (from_chunks ++ from_whole).take target_bits

/-- One iteration of the `while` loop in `TrngGenerator.generate`:
`bits_needed = min(batch_size, target_bits - total)`; mix the freshly
extracted raw bits with `max_bits = bits_needed * 2`; truncate the mixed
output to `bits_needed` bits; advance the total by the amount actually
produced. -/
def generate_iteration (use_dual_mixers : Bool) (batch_size target_bits total : Nat)
    (raw : List Nat) : Nat :=
  let bits_needed := min batch_size (target_bits - total)
  total + ((process_bits use_dual_mixers raw (some (bits_needed * 2))).take bits_needed).length

/-- The `while self.total_bits_generated < self.target_bits` loop of
`TrngGenerator.generate`, with the per-iteration raw extracted bits
supplied by `raws` and an explicit fuel bound; returns `some` final total
if the loop exits within `fuel` iterations. -/
def generate_loop (use_dual_mixers : Bool) (batch_size target_bits : Nat)
    (raws : Nat → List Nat) : Nat → Nat → Nat → Option Nat
  | 0, _, total => if target_bits ≤ total then some total else none
  | fuel + 1, i, total =>
    if target_bits ≤ total then some total
    else generate_loop use_dual_mixers batch_size target_bits raws fuel (i + 1)
      (generate_iteration use_dual_mixers batch_size target_bits total (raws i))

/-! ### C1: the worked single-mixer example -/

/-- C1: single-mixer processing of `[0,1,1,0,1,1,0,1]` uses `steps = 3`
and a buffer of size 5, places bit 0 at slot 0 and bit 1 at slot 4
(occupied list `[0,4]` entering round 2), places one bit at slot 2 in
round 2 and bits at slots 1 and 3 in round 3, yielding the buffer
`[0,0,1,1,1]`, which XOR-compresses (dropping the trailing slot) to
exactly the 2 output bits `[0,0]`. -/
theorem single_mixer_example_exact :
    calculate_mixing_steps 8 = 3
    ∧ 2 ^ (3 - 1) + 1 = 5
    ∧ (mix_bits_traced [0, 1, 1, 0, 1, 1, 0, 1] 3).2.2 = [[0, 4], [0, 2, 4]]
    ∧ (mix_bits_traced [0, 1, 1, 0, 1, 1, 0, 1] 3).2.1 = [[2], [1, 3]]
    ∧ mix_bits [0, 1, 1, 0, 1, 1, 0, 1] 3 = [0, 0, 1, 1, 1]
    ∧ xor_adjacent_bits [0, 0, 1, 1, 1] = [0, 0]
    ∧ process_with_single_mixer [0, 1, 1, 0, 1, 1, 0, 1] = [0, 0] := by
  have hsteps : calculate_mixing_steps 8 = 3 := by
    simp [calculate_mixing_steps, Nat.log2]
  refine ⟨hsteps, by decide, by decide, by decide, by decide, by decide, ?_⟩
  show xor_adjacent_bits (mix_bits [0, 1, 1, 0, 1, 1, 0, 1]
    (calculate_mixing_steps (List.length [0, 1, 1, 0, 1, 1, 0, 1]))) = [0, 0]
  rw [show List.length [0, 1, 1, 0, 1, 1, 0, 1] = 8 from rfl, hsteps]
  decide

/-! ### C2: buffer capacity versus input length -/

/-- C2 counterexample: for `n = 4` the buffer capacity
`2^(mixing_steps(4)-1)+1 = 3` is NOT at least `n`. -/
theorem mixing_capacity_counterexample :
    2 ^ (calculate_mixing_steps 4 - 1) + 1 < 4 := by
  have h4 : calculate_mixing_steps 4 = 2 := by
    simp [calculate_mixing_steps, Nat.log2]
  rw [h4]
  decide

/-- C2 (amended): for every `n ≥ 2` the buffer capacity
`2^(mixing_steps(n)-1)+1` is at most `n` and at least `n/2 + 1`
(equivalently `n ≤ 2^mixing_steps(n)`, twice the interior slot count);
capacity ≥ n fails in general (e.g. at `n = 4`). -/
theorem mixing_capacity_bounds (n : Nat) (h : 2 ≤ n) :
    2 ^ (calculate_mixing_steps n - 1) + 1 ≤ n
    ∧ n ≤ 2 ^ calculate_mixing_steps n := by
  have hn1 : ¬ n ≤ 1 := by omega
  have hne : n - 1 ≠ 0 := by omega
  have hsteps : calculate_mixing_steps n = Nat.log2 (n - 1) + 1 := by
    simp [calculate_mixing_steps, hn1]
  constructor
  · have hle : 2 ^ Nat.log2 (n - 1) ≤ n - 1 := by
      rw [Nat.log2_eq_log_two]
      exact Nat.pow_log_le_self 2 hne
    rw [hsteps]
    simp only [Nat.add_sub_cancel]
    omega
  · have hlt : n - 1 < 2 ^ (Nat.log2 (n - 1) + 1) := by
      rw [Nat.log2_eq_log_two]
      exact Nat.lt_pow_succ_log_self (by norm_num) (n - 1)
    rw [hsteps]
    omega

/-- Witness for `mixing_capacity_bounds` at `n = 5`. -/
theorem mixing_capacity_bounds_witness :
    2 ^ (calculate_mixing_steps 5 - 1) + 1 ≤ 5 ∧ 5 ≤ 2 ^ calculate_mixing_steps 5 :=
  mixing_capacity_bounds 5 (by norm_num)

/-! ### Length lemmas for the mixer -/

/-- `xor_adjacent_bits` halves the length (rounding down). -/
theorem xor_adjacent_bits_length : ∀ l : List Nat,
    (xor_adjacent_bits l).length = l.length / 2
  | [] => by simp [xor_adjacent_bits]
  | [a] => by simp [xor_adjacent_bits]
  | a :: b :: rest => by
    simp only [xor_adjacent_bits, List.length_cons, xor_adjacent_bits_length rest]
    omega

/-- A mixing round does not change the buffer length. -/
theorem mix_round_length (input : List Nat) :
    ∀ (s buf : List Nat) (idx : Nat),
      (mix_round input buf idx s).1.length = buf.length := by
  intro s
  induction s with
  | nil => intro buf idx; simp [mix_round]
  | cons l t ih =>
    intro buf idx
    match t with
    | [] => simp [mix_round]
    | r :: rest =>
      simp only [mix_round]
      split
      · simpa using ih (buf.set ((l + r) / 2) (input.getD idx 0)) (idx + 1)
      · exact ih buf idx

/-- The round loop does not change the buffer length. -/
theorem mix_rounds_length (input : List Nat) :
    ∀ (n : Nat) (buf : List Nat) (idx : Nat) (occ : List Nat),
      (mix_rounds input n buf idx occ).length = buf.length := by
  intro n
  induction n with
  | zero => intro buf idx occ; simp [mix_rounds]
  | succ n ih =>
    intro buf idx occ
    simp only [mix_rounds]
    split
    · exact mix_round_length input occ buf idx
    · rw [ih]
      exact mix_round_length input occ buf idx

/-- `mix_bits` always returns a buffer of exactly `2^(steps-1)+1` slots. -/
theorem mix_bits_length (input : List Nat) (steps : Nat) :
    (mix_bits input steps).length = 2 ^ (steps - 1) + 1 := by
  unfold mix_bits
  split
  · split <;> split <;> simp
  · rw [mix_rounds_length]
    split <;> split <;> simp

/-- Arithmetic fact used for the output length: in truncated natural
subtraction, `(2^(s-1) + 1) / 2 = 2^(s-2)` for every `s`. -/
theorem half_buffer_pow (s : Nat) : (2 ^ (s - 1) + 1) / 2 = 2 ^ (s - 2) := by
  match s with
  | 0 => decide
  | 1 => decide
  | t + 2 =>
    have h : 2 ^ (t + 2 - 1) = 2 * 2 ^ (t + 2 - 2) := by
      simp only [Nat.add_sub_cancel]
      rw [show t + 2 - 1 = t + 1 from rfl, pow_succ]
      ring
    omega

/-- Shared helper: the single-mixer output length depends only on the
input length. -/
theorem process_single_length (zs : List Nat) :
    (process_with_single_mixer zs).length
      = 2 ^ (calculate_mixing_steps zs.length - 2) := by
  unfold process_with_single_mixer
  rw [xor_adjacent_bits_length, mix_bits_length, half_buffer_pow]

/-- Shared helper: the single-mixer output is never empty. -/
theorem process_single_length_pos (zs : List Nat) :
    1 ≤ (process_with_single_mixer zs).length := by
  rw [process_single_length]
  exact Nat.one_le_two_pow

/-- Shared helper: the dual-mixer output is never empty either. -/
theorem process_dual_length_pos (zs : List Nat) :
    1 ≤ (process_with_dual_mixers zs).length := by
  have hsplit : process_with_dual_mixers zs
      = process_with_single_mixer (zs.take (zs.length / 2))
        ++ process_with_single_mixer (zs.drop (zs.length / 2)) := rfl
  rw [hsplit, List.length_append]
  have h := process_single_length_pos (zs.take (zs.length / 2))
  omega

/-- Shared helper: `process_bits` always produces at least one bit, in
both mixer modes, whatever truncation limit is supplied. -/
theorem process_bits_length_pos (d : Bool) (raw : List Nat) (mb : Option Nat) :
    1 ≤ (process_bits d raw mb).length := by
  unfold process_bits
  cases d with
  | false => simpa using process_single_length_pos _
  | true => simpa using process_dual_length_pos _

/-! ### C10: single-mixer output length and degenerate values -/

/-- C10: the single-mixer output length is `2^(mixing_steps(n) - 2)` (with
truncated natural subtraction, so 1 bit for `n ≤ 2`) as a function of the
input length `n` alone, never zero; the empty input yields `[0]` and a
one-element input `[b]` yields `[b]`. -/
theorem single_mixer_output_spec (input xs ys : List Nat) (b : Nat)
    (hlen : xs.length = ys.length) :
    (process_with_single_mixer input).length
      = 2 ^ (calculate_mixing_steps input.length - 2)
    ∧ 1 ≤ (process_with_single_mixer input).length
    ∧ process_with_single_mixer [] = [0]
    ∧ process_with_single_mixer [b] = [b]
    ∧ (process_with_single_mixer xs).length = (process_with_single_mixer ys).length := by
  refine ⟨process_single_length input, process_single_length_pos input, by decide, ?_, ?_⟩
  · show xor_adjacent_bits (mix_bits [b] (calculate_mixing_steps 1)) = [b]
    have h1 : calculate_mixing_steps 1 = 1 := by decide
    rw [h1]
    show xor_adjacent_bits [b, 0] = [b]
    simp [xor_adjacent_bits]
  · rw [process_single_length xs, process_single_length ys, hlen]

/-- Witness for `single_mixer_output_spec` at concrete inputs. -/
theorem single_mixer_output_spec_witness :
    ((process_with_single_mixer [0, 1, 1]).length
        = 2 ^ (calculate_mixing_steps (List.length [0, 1, 1]) - 2)
      ∧ 1 ≤ (process_with_single_mixer [0, 1, 1]).length
      ∧ process_with_single_mixer [] = [0]
      ∧ process_with_single_mixer [1] = [1]
      ∧ (process_with_single_mixer [1, 1]).length
          = (process_with_single_mixer [0, 1]).length) :=
  single_mixer_output_spec [0, 1, 1] [1, 1] [0, 1] 1 rfl

/-! ### C9: degenerate inputs to mixing are safe -/

/-- If no input bits remain, a round places nothing and leaves the buffer
unchanged. -/
theorem mix_round_no_input (input : List Nat) :
    ∀ (s buf : List Nat) (idx : Nat), input.length ≤ idx →
      mix_round input buf idx s = (buf, idx, []) := by
  intro s
  induction s with
  | nil => intro buf idx _; simp [mix_round]
  | cons l t ih =>
    intro buf idx h
    match t with
    | [] => simp [mix_round]
    | r :: rest =>
      simp only [mix_round]
      rw [if_neg (by omega), ih buf idx h]

/-- If no input bits remain, the round loop leaves the buffer unchanged. -/
theorem mix_rounds_no_input (input : List Nat) (n : Nat)
    (buf : List Nat) (idx : Nat) (occ : List Nat) (h : input.length ≤ idx) :
    mix_rounds input n buf idx occ = buf := by
  match n with
  | 0 => rfl
  | n + 1 =>
    simp only [mix_rounds, mix_round_no_input input occ buf idx h]
    rw [if_pos h]

/-- C9: mixing inputs of length 0 or 1 is handled totally, for every step
count the source can supply: the empty input leaves the whole buffer
zero, a one-bit input `[b]` sets only slot 0, at most one slot is
nonzero, and XOR compression reduces either buffer to `m / 2` output
bits. -/
theorem mix_degenerate_safe (b : Nat) (steps : Nat) (hs : 1 ≤ steps) :
    mix_bits [] steps = List.replicate (2 ^ (steps - 1) + 1) 0
    ∧ mix_bits [b] steps = (List.replicate (2 ^ (steps - 1) + 1) 0).set 0 b
    ∧ ((mix_bits [b] steps).filter (fun x => x ≠ 0)).length ≤ 1
    ∧ (xor_adjacent_bits (mix_bits [] steps)).length = (2 ^ (steps - 1) + 1) / 2
    ∧ (xor_adjacent_bits (mix_bits [b] steps)).length = (2 ^ (steps - 1) + 1) / 2 := by
  have hnil : mix_bits [] steps = List.replicate (2 ^ (steps - 1) + 1) 0 := by
    unfold mix_bits
    split
    · simp
    · rw [mix_rounds_no_input _ _ _ _ _ (by simp)]
      simp
  have hone : mix_bits [b] steps = (List.replicate (2 ^ (steps - 1) + 1) 0).set 0 b := by
    unfold mix_bits
    split
    · simp
    · rw [mix_rounds_no_input _ _ _ _ _ (by simp)]
      simp
  have hrep : (List.replicate (2 ^ (steps - 1) + 1) 0).set 0 b
      = b :: List.replicate (2 ^ (steps - 1)) 0 := by
    rw [List.replicate_succ]
    rfl
  refine ⟨hnil, hone, ?_, ?_, ?_⟩
  · rw [hone, hrep]
    simp only [List.filter_cons]
    have hfilter : (List.replicate (2 ^ (steps - 1)) 0).filter (fun x => x ≠ 0) = [] := by
      simp [List.filter_eq_nil_iff, List.eq_of_mem_replicate]
    split <;> simp [hfilter]
  · rw [xor_adjacent_bits_length, hnil, List.length_replicate]
  · rw [xor_adjacent_bits_length, hone]
    simp

/-- Witness for `mix_degenerate_safe` at `b = 1`, `steps = 1`. -/
theorem mix_degenerate_safe_witness :
    mix_bits [] 1 = List.replicate (2 ^ (1 - 1) + 1) 0
    ∧ mix_bits [1] 1 = (List.replicate (2 ^ (1 - 1) + 1) 0).set 0 1
    ∧ ((mix_bits [1] 1).filter (fun x => x ≠ 0)).length ≤ 1
    ∧ (xor_adjacent_bits (mix_bits [] 1)).length = (2 ^ (1 - 1) + 1) / 2
    ∧ (xor_adjacent_bits (mix_bits [1] 1)).length = (2 ^ (1 - 1) + 1) / 2 :=
  mix_degenerate_safe 1 1 (by decide)

/-! ### C4: dual-mixer mode refines two independent single mixers -/

/-- C4: for every input bit list, dual-mixer processing equals
single-mixer processing of the first `len/2` bits concatenated with
single-mixer processing of the remaining bits, each half computing its
own step count from its own length. -/
theorem dual_mixers_eq_single_halves (bits : List Nat) :
    process_with_dual_mixers bits
      = process_with_single_mixer (bits.take (bits.length / 2))
        ++ process_with_single_mixer (bits.drop (bits.length / 2)) := rfl

/-! ### C6: termination of the batch orchestration loop -/

/-- Helper: with fuel at least `target_bits - total`, the loop exits with
a total of at least `target_bits`. -/
theorem generate_loop_exits (d : Bool) (batch target : Nat) (raws : Nat → List Nat)
    (hb : 1 ≤ batch) :
    ∀ (fuel total i : Nat), target ≤ total + fuel →
      ∃ t, generate_loop d batch target raws fuel i total = some t ∧ target ≤ t := by
  intro fuel
  induction fuel with
  | zero =>
    intro total i h
    refine ⟨total, ?_, by omega⟩
    simp only [generate_loop]
    rw [if_pos (by omega)]
  | succ fuel ih =>
    intro total i h
    by_cases hdone : target ≤ total
    · exact ⟨total, by simp only [generate_loop]; rw [if_pos hdone], hdone⟩
    · have hstep : total + 1 ≤ generate_iteration d batch target total (raws i) := by
        have h1 : 1 ≤ min batch (target - total) := by omega
        have h2 := process_bits_length_pos d (raws i)
          (some (min batch (target - total) * 2))
        simp only [generate_iteration, List.length_take]
        omega
      obtain ⟨t, ht, htt⟩ :=
        ih (generate_iteration d batch target total (raws i)) (i + 1) (by omega)
      refine ⟨t, ?_, htt⟩
      simp only [generate_loop]
      rw [if_neg hdone]
      exact ht

/-- C6: for every `target_bits > 0` (and positive batch size) the batch
loop terminates with `total_bits_generated ≥ target_bits`; each
iteration feeds at most `bits_needed * 2` raw bits into mixing (the
mixer sees exactly `raw.take (bits_needed * 2)`), truncates the mixed
output to at most `bits_needed` bits, and advances the total by the
actual amount produced, which is strictly positive. -/
theorem generate_loop_terminates (d : Bool) (batch_size target_bits : Nat)
    (raws : Nat → List Nat) (raw : List Nat) (k total : Nat)
    (hb : 1 ≤ batch_size) (ht : 1 ≤ target_bits) (htot : total < target_bits) :
    (∃ t, generate_loop d batch_size target_bits raws target_bits 0 0 = some t
        ∧ target_bits ≤ t)
    ∧ process_bits d raw (some k) = process_bits d (raw.take k) none
    ∧ generate_iteration d batch_size target_bits total raw
        = total + ((process_bits d raw (some (min batch_size (target_bits - total) * 2))).take
            (min batch_size (target_bits - total))).length
    ∧ generate_iteration d batch_size target_bits total raw
        ≤ total + min batch_size (target_bits - total)
    ∧ total < generate_iteration d batch_size target_bits total raw := by
  refine ⟨generate_loop_exits d batch_size target_bits raws hb target_bits 0 0 (by omega),
    ?_, rfl, ?_, ?_⟩
  · have harg : (if k < raw.length then raw.take k else raw) = raw.take k := by
      by_cases hk : k < raw.length
      · rw [if_pos hk]
      · rw [if_neg hk, List.take_of_length_le (by omega)]
    simp only [process_bits]
    rw [harg]
  · simp only [generate_iteration, List.length_take]
    omega
  · have h1 : 1 ≤ min batch_size (target_bits - total) := by omega
    have h2 := process_bits_length_pos d raw
      (some (min batch_size (target_bits - total) * 2))
    simp only [generate_iteration, List.length_take]
    omega

/-- Witness for `generate_loop_terminates` at a concrete configuration. -/
theorem generate_loop_terminates_witness :
    (∃ t, generate_loop false 1 1 (fun _ => []) 1 0 0 = some t ∧ 1 ≤ t)
    ∧ process_bits false [] (some 0) = process_bits false (List.take 0 []) none
    ∧ generate_iteration false 1 1 0 []
        = 0 + ((process_bits false [] (some (min 1 (1 - 0) * 2))).take (min 1 (1 - 0))).length
    ∧ generate_iteration false 1 1 0 [] ≤ 0 + min 1 (1 - 0)
    ∧ 0 < generate_iteration false 1 1 0 [] :=
  generate_loop_terminates false 1 1 (fun _ => []) [] 0 0
    (by decide) (by decide) (by decide)

/-! ### C3: whitening output length -/

/-- Unpacking bytes yields 8 bits per byte. -/
theorem bytes_to_bits_length : ∀ data : List Nat,
    (bytes_to_bits data).length = 8 * data.length
  | [] => by simp [bytes_to_bits]
  | a :: t => by
    have ih := bytes_to_bits_length t
    simp only [bytes_to_bits, List.map_cons, List.flatten_cons, List.length_append,
      List.length_map, List.length_range, List.length_cons] at ih ⊢
    omega

/-- A flattened list of `k` blocks of 256 bits has `256 * k` bits. -/
theorem flatten_const_256 (f : Nat → List Nat) (hf : ∀ i, (f i).length = 256) (k : Nat) :
    (((List.range k).map f).flatten).length = 256 * k := by
  induction k with
  | zero => simp
  | succ k ih =>
    rw [List.range_succ]
    simp only [List.map_append, List.flatten_append, List.length_append, ih,
      List.map_cons, List.map_nil, List.flatten_cons, List.flatten_nil,
      List.append_nil, hf]
    ring

/-- C3: for every nonempty data, every `target_bits > 0` (not necessarily
a multiple of 256), and every digest primitive producing 32-byte digests
(as SHA3-256 does), the whitening stage returns exactly `target_bits`
bits. -/
theorem whitening_length_exact (hash : List Nat → List Nat) (data : List Nat)
    (target_bits : Nat) (hh : ∀ x, (hash x).length = 32)
    (hd : data ≠ []) (htb : 1 ≤ target_bits) :
    (generate_and_save_sha3 hash data target_bits).length = target_bits := by
  unfold generate_and_save_sha3
  simp only [List.length_take, List.length_append]
  rw [flatten_const_256 _ (fun i => by rw [bytes_to_bits_length, hh]) _,
    flatten_const_256 _ (fun i => by rw [bytes_to_bits_length, hh]) _]
  have hdm := Nat.div_add_mod (target_bits + 255) 256
  have hmod : (target_bits + 255) % 256 < 256 := Nat.mod_lt _ (by norm_num)
  have hmin : min ((target_bits + 255) / 256)
      (data.length / max (data.length / min ((target_bits + 255) / 256) 1000) 64)
      ≤ (target_bits + 255) / 256 := Nat.min_le_left _ _
  omega

/-- Witness for `whitening_length_exact` with a constant 32-byte digest
function, one data byte and 5 target bits. -/
theorem whitening_length_exact_witness :
    (generate_and_save_sha3 (fun _ => List.replicate 32 0) [0] 5).length = 5 :=
  whitening_length_exact (fun _ => List.replicate 32 0) [0] 5
    (fun _ => by simp) (by simp) (by norm_num)

/-! ### Bit packing and unpacking (C7, C8) -/

/-- The fully unrolled byte built by the packing inner loop from eight
bit values. -/
def byteExpr (x0 x1 x2 x3 x4 x5 x6 x7 : Nat) : Nat :=
  ((((((((0 ||| x0 <<< 7) ||| x1 <<< 6) ||| x2 <<< 5) ||| x3 <<< 4) ||| x4 <<< 3)
    ||| x5 <<< 2) ||| x6 <<< 1) ||| x7 <<< 0)

/-- Unpacking a packed byte MSB-first recovers the eight source bits
(checked exhaustively over all 256 bytes). -/
theorem byteExpr_extract_fin : ∀ x0 x1 x2 x3 x4 x5 x6 x7 : Fin 2,
    (List.range 8).map (fun t =>
        ((byteExpr x0.val x1.val x2.val x3.val x4.val x5.val x6.val x7.val) >>> (7 - t)) &&& 1)
      = [x0.val, x1.val, x2.val, x3.val, x4.val, x5.val, x6.val, x7.val] := by
  decide

/-- `byteExpr_extract_fin` restated for natural-number bit values. -/
theorem byteExpr_extract (x0 x1 x2 x3 x4 x5 x6 x7 : Nat)
    (h0 : x0 < 2) (h1 : x1 < 2) (h2 : x2 < 2) (h3 : x3 < 2)
    (h4 : x4 < 2) (h5 : x5 < 2) (h6 : x6 < 2) (h7 : x7 < 2) :
    (List.range 8).map (fun t =>
        ((byteExpr x0 x1 x2 x3 x4 x5 x6 x7) >>> (7 - t)) &&& 1)
      = [x0, x1, x2, x3, x4, x5, x6, x7] :=
  byteExpr_extract_fin ⟨x0, h0⟩ ⟨x1, h1⟩ ⟨x2, h2⟩ ⟨x3, h3⟩
    ⟨x4, h4⟩ ⟨x5, h5⟩ ⟨x6, h6⟩ ⟨x7, h7⟩

/-- The packing inner loop, unrolled. -/
theorem bits_to_byte_unfold (l : List Nat) (i : Nat) :
    bits_to_byte l i
      = byteExpr (l.getD (i * 8 + 0) 0) (l.getD (i * 8 + 1) 0) (l.getD (i * 8 + 2) 0)
          (l.getD (i * 8 + 3) 0) (l.getD (i * 8 + 4) 0) (l.getD (i * 8 + 5) 0)
          (l.getD (i * 8 + 6) 0) (l.getD (i * 8 + 7) 0) := rfl

/-- Packing byte `i + 1` of a bit list packs byte `i` of the list with
its first 8 bits dropped. -/
theorem bits_to_byte_succ (l : List Nat) (i : Nat) :
    bits_to_byte l (i + 1) = bits_to_byte (l.drop 8) i := by
  have hjd : ∀ m : Nat, l.getD ((i + 1) * 8 + m) 0 = (l.drop 8).getD (i * 8 + m) 0 := by
    intro m
    have harith : (i + 1) * 8 + m = 8 + (i * 8 + m) := by ring
    rw [harith, List.getD_eq_getElem?_getD, List.getD_eq_getElem?_getD, List.getElem?_drop]
  rw [bits_to_byte_unfold, bits_to_byte_unfold,
    hjd 0, hjd 1, hjd 2, hjd 3, hjd 4, hjd 5, hjd 6, hjd 7]

/-- Unpacking byte 0 of a packed bit list recovers its first 8 bits. -/
theorem bits_to_byte_zero_unpack (l : List Nat) (hb : ∀ b ∈ l, b < 2)
    (hl : 8 ≤ l.length) :
    (List.range 8).map (fun t => ((bits_to_byte l 0) >>> (7 - t)) &&& 1) = l.take 8 := by
  match l, hl with
  | a0 :: a1 :: a2 :: a3 :: a4 :: a5 :: a6 :: a7 :: rest, _ =>
    have h8 : bits_to_byte (a0 :: a1 :: a2 :: a3 :: a4 :: a5 :: a6 :: a7 :: rest) 0
        = byteExpr a0 a1 a2 a3 a4 a5 a6 a7 := rfl
    rw [h8, byteExpr_extract a0 a1 a2 a3 a4 a5 a6 a7
      (hb a0 (by simp)) (hb a1 (by simp)) (hb a2 (by simp)) (hb a3 (by simp))
      (hb a4 (by simp)) (hb a5 (by simp)) (hb a6 (by simp)) (hb a7 (by simp))]
    rfl

/-- Unpacking all packed bytes of a bit list whose length is exactly
`8 * k` recovers the list. -/
theorem unpack_chunks : ∀ (k : Nat) (l : List Nat), (∀ b ∈ l, b < 2) → l.length = 8 * k →
    ((List.range k).map (fun i =>
        (List.range 8).map (fun t => ((bits_to_byte l i) >>> (7 - t)) &&& 1))).flatten = l := by
  intro k
  induction k with
  | zero =>
    intro l _ hl
    simp only [List.range_zero, List.map_nil, List.flatten_nil]
    exact (List.eq_nil_of_length_eq_zero (by omega)).symm
  | succ k ih =>
    intro l hb hl
    rw [List.range_succ_eq_map k, List.map_cons, List.flatten_cons, List.map_map]
    have hzero : (List.range 8).map
        (fun t => ((bits_to_byte l 0) >>> (7 - t)) &&& 1) = l.take 8 :=
      bits_to_byte_zero_unpack l hb (by omega)
    have hfun : ((fun i =>
          (List.range 8).map (fun t => ((bits_to_byte l i) >>> (7 - t)) &&& 1)) ∘ Nat.succ)
        = fun i => (List.range 8).map
            (fun t => ((bits_to_byte (l.drop 8) i) >>> (7 - t)) &&& 1) := by
      funext i
      simp only [Function.comp]
      rw [show Nat.succ i = i + 1 from rfl, bits_to_byte_succ]
    rw [hzero, hfun, ih (l.drop 8) (fun b hbb => hb b (List.mem_of_mem_drop hbb))
      (by rw [List.length_drop]; omega)]
    exact List.take_append_drop 8 l

/-- The padded bit list written by `save_bits_to_file`. -/
theorem save_padded_facts (bits : List Nat) :
    (bits ++ List.replicate ((8 - bits.length % 8) % 8) 0).length
      = bits.length + (8 - bits.length % 8) % 8
    ∧ (bits.length + (8 - bits.length % 8) % 8) % 8 = 0 := by
  constructor
  · simp
  · omega

/-- Round trip with explicit padding: unpacking the bytes written by
`save_bits_to_file` recovers the input bits followed by the zero
padding. -/
theorem load_save (bits : List Nat) (hb : ∀ b ∈ bits, b < 2) :
    load_bits_from_file (save_bits_to_file bits).1 none
      = bits ++ List.replicate ((8 - bits.length % 8) % 8) 0 := by
  set pad := (8 - bits.length % 8) % 8 with hpad
  set padded := bits ++ List.replicate pad 0 with hpadded
  have hlen : padded.length = bits.length + pad := by simp [hpadded]
  have hmod : padded.length % 8 = 0 := by
    rw [hlen]
    omega
  have hk : padded.length = 8 * (padded.length / 8) := by omega
  have hmem : ∀ b ∈ padded, b < 2 := by
    intro b hbb
    rcases List.mem_append.mp hbb with h | h
    · exact hb b h
    · rw [List.eq_of_mem_replicate h]
      norm_num
  show load_bits_from_file
      ((List.range (padded.length / 8)).map (fun i => bits_to_byte padded i)) none = padded
  show bytes_to_bits ((List.range (padded.length / 8)).map (fun i => bits_to_byte padded i))
      = padded
  unfold bytes_to_bits
  rw [List.map_map]
  exact unpack_chunks (padded.length / 8) padded hmem hk

/-! ### C7: what `save_bits_to_file` returns -/

/-- C7 counterexample: packing the 3-bit list `[1,0,1]` returns 8 (the
padded length), not the original input length 3. -/
theorem save_return_counterexample :
    (save_bits_to_file [1, 0, 1]).2 = 8 ∧ (save_bits_to_file [1, 0, 1]).2 ≠ 3 := by
  constructor <;> decide

/-- C7 (amended): `save_bits_to_file` packs MSB-first bytes zero-padded
on the right to the next byte boundary (unpacking them gives back the
input bits followed by the padding), but returns the PADDED bit count
`len + (8 - len % 8) % 8`; this equals the original input length exactly
when that length is a multiple of 8. -/
theorem save_bits_spec (bits : List Nat) (hb : ∀ b ∈ bits, b < 2) :
    (save_bits_to_file bits).2 = bits.length + (8 - bits.length % 8) % 8
    ∧ load_bits_from_file (save_bits_to_file bits).1 none
        = bits ++ List.replicate ((8 - bits.length % 8) % 8) 0
    ∧ (bits.length % 8 = 0 → (save_bits_to_file bits).2 = bits.length) := by
  refine ⟨by simp [save_bits_to_file], load_save bits hb, ?_⟩
  intro h8
  simp [save_bits_to_file]
  omega

/-- Witness for `save_bits_spec` at `[1,0,1]`. -/
theorem save_bits_spec_witness :
    (save_bits_to_file [1, 0, 1]).2 = List.length [1, 0, 1] + (8 - List.length [1, 0, 1] % 8) % 8
    ∧ load_bits_from_file (save_bits_to_file [1, 0, 1]).1 none
        = [1, 0, 1] ++ List.replicate ((8 - List.length [1, 0, 1] % 8) % 8) 0
    ∧ (List.length [1, 0, 1] % 8 = 0 → (save_bits_to_file [1, 0, 1]).2 = List.length [1, 0, 1]) :=
  save_bits_spec [1, 0, 1] (by decide)

/-! ### C8: round trip on byte-aligned bit lists -/

/-- C8: for every 0/1 bit list whose length is a multiple of 8, unpacking
the bytes produced by packing it (with no `max_bits` limit) reproduces
the original list exactly. -/
theorem pack_unpack_roundtrip (bits : List Nat) (hb : ∀ b ∈ bits, b < 2)
    (h8 : bits.length % 8 = 0) :
    load_bits_from_file (save_bits_to_file bits).1 none = bits := by
  have h := load_save bits hb
  rw [h8] at h
  simpa using h

/-- Witness for `pack_unpack_roundtrip` on one concrete byte. -/
theorem pack_unpack_roundtrip_witness :
    load_bits_from_file (save_bits_to_file [1, 0, 1, 1, 0, 0, 1, 0]).1 none
      = [1, 0, 1, 1, 0, 0, 1, 0] :=
  pack_unpack_roundtrip [1, 0, 1, 1, 0, 0, 1, 0] (by decide) (by decide)

/-! ### C5: invariants of the occupied-position list

The occupied-position list of `_mix_bits` always consists of slot 0, the
last slot, and midpoints placed strictly between previously occupied
slots.  The key invariant is that all gaps between adjacent occupied
positions are powers of two that stay at least `2^g` while `g` rounds of
fuel remain, so a midpoint is always strictly interior to its gap and
hence fresh. -/

/-- Adjacent-gap invariant: `y` exceeds `x` by a power of two that is at
least `2^g`. -/
def gapProp (g : Nat) (x y : Nat) : Prop := ∃ e, g ≤ e ∧ y = x + 2 ^ e

theorem gapProp_lt {g x y : Nat} (h : gapProp g x y) : x < y := by
  obtain ⟨e, -, rfl⟩ := h
  have h1 : 1 ≤ 2 ^ e := Nat.one_le_two_pow
  omega

theorem chain_gapProp_sorted {g : Nat} {l : List Nat}
    (h : List.Chain' (gapProp g) l) : List.Sorted (· < ·) l := by
  have h2 : List.Chain' (· < ·) l := h.imp (fun a b hab => gapProp_lt hab)
  exact List.chain'_iff_pairwise.mp h2

theorem sorted_lt_le {l : List Nat} (h : List.Sorted (· < ·) l) :
    List.Sorted (· ≤ ·) l :=
  h.imp le_of_lt

theorem sorted_lt_nodup {l : List Nat} (h : List.Sorted (· < ·) l) : l.Nodup :=
  h.imp ne_of_lt

theorem mem_of_head?_self {l : List Nat} {a : Nat} (h : l.head? = some a) : a ∈ l := by
  cases l with
  | nil => simp at h
  | cons x t => simp at h; simp [h]

theorem sorted_le_getLast {l : List Nat} {z : Nat} (hs : List.Sorted (· < ·) l)
    (hz : l.getLast? = some z) : ∀ p ∈ l, p ≤ z := by
  induction l with
  | nil => simp at hz
  | cons a t ih =>
    intro p hp
    cases t with
    | nil =>
      simp at hz hp
      omega
    | cons b t2 =>
      rw [List.getLast?_cons_cons] at hz
      rcases List.mem_cons.mp hp with rfl | hp2
      · have hzmem : z ∈ b :: t2 := List.mem_of_getLast?_eq_some hz
        have := List.rel_of_sorted_cons hs z hzmem
        omega
      · exact ih hs.of_cons hz p hp2

/-- Sorting recomputes any sorted permutation. -/
theorem sortNat_eq_of_sorted_perm (l m : List Nat) (hperm : List.Perm m l)
    (hs : List.Sorted (· ≤ ·) m) : sortNat l = m :=
  List.eq_of_perm_of_sorted ((List.perm_insertionSort _ l).trans hperm.symm)
    (List.sorted_insertionSort _ l) hs

/-- One-step unfolding of `mix_round` on a list with at least two
occupied positions. -/
theorem mix_round_cons (input buf : List Nat) (idx l r : Nat) (rest : List Nat) :
    mix_round input buf idx (l :: r :: rest)
      = if idx < input.length ∧ buf.getD ((l + r) / 2) 0 = 0 then
          ((mix_round input (buf.set ((l + r) / 2) (input.getD idx 0)) (idx + 1) (r :: rest)).1,
            (mix_round input (buf.set ((l + r) / 2) (input.getD idx 0)) (idx + 1) (r :: rest)).2.1,
            (l + r) / 2 ::
              (mix_round input (buf.set ((l + r) / 2) (input.getD idx 0)) (idx + 1) (r :: rest)).2.2)
        else mix_round input buf idx (r :: rest) := by
  simp only [mix_round]

/-- Round specification: starting from an occupied list whose adjacent
gaps are powers of two at least `2^g` (`g ≥ 1`), a round places each new
bit at a midpoint strictly interior to its gap; the merged occupied list
is sorted, keeps the same endpoints, and its gaps are powers of two at
least `2^(g-1)`; the newly placed positions are fresh, sorted and
strictly between the endpoints. -/
theorem mix_round_spec (input : List Nat) (g : Nat) (hg : 1 ≤ g) :
    ∀ (N : Nat) (s : List Nat), s.length ≤ N → ∀ (buf : List Nat) (idx : Nat),
      List.Chain' (gapProp g) s →
      ∃ merged : List Nat,
        List.Perm merged (s ++ (mix_round input buf idx s).2.2)
        ∧ List.Chain' (gapProp (g - 1)) merged
        ∧ merged.head? = s.head?
        ∧ merged.getLast? = s.getLast?
        ∧ (∀ p ∈ (mix_round input buf idx s).2.2,
            p ∉ s ∧ (∀ a, s.head? = some a → a < p) ∧ (∀ z, s.getLast? = some z → p < z))
        ∧ List.Sorted (· < ·) (mix_round input buf idx s).2.2 := by
  intro N
  induction N with
  | zero =>
    intro s hsl buf idx hchain
    have hnil : s = [] := List.eq_nil_of_length_eq_zero (by omega)
    subst hnil
    exact ⟨[], by simp [mix_round], by simp, rfl, rfl, by simp [mix_round], by simp [mix_round]⟩
  | succ N ihN =>
    intro s hsl buf idx hchain
    match s with
    | [] =>
      exact ⟨[], by simp [mix_round], by simp, rfl, rfl, by simp [mix_round], by simp [mix_round]⟩
    | [x] =>
      exact ⟨[x], by simp [mix_round], by simp, rfl, rfl, by simp [mix_round], by simp [mix_round]⟩
    | l :: r :: rest =>
      rw [List.chain'_cons] at hchain
      obtain ⟨⟨e, hge, hre⟩, htail⟩ := hchain
      obtain ⟨e', rfl⟩ : ∃ e', e = e' + 1 := ⟨e - 1, by omega⟩
      have hpow : 2 ^ (e' + 1) = 2 ^ e' + 2 ^ e' := by
        rw [pow_succ]
        ring
      have hpos : 1 ≤ 2 ^ e' := Nat.one_le_two_pow
      have hmid : (l + r) / 2 = l + 2 ^ e' := by omega
      have hlm : l < (l + r) / 2 := by omega
      have hmr : (l + r) / 2 < r := by omega
      have hsorted_tail : List.Sorted (· < ·) (r :: rest) := chain_gapProp_sorted htail
      have hrestgt : ∀ x ∈ rest, r < x := List.rel_of_sorted_cons hsorted_tail
      have hlast_eq : (l :: r :: rest).getLast? = (r :: rest).getLast? :=
        List.getLast?_cons_cons
      have hlastr : ∀ z, (r :: rest).getLast? = some z → r ≤ z := by
        intro z hz
        exact sorted_le_getLast hsorted_tail hz r (by simp)
      rw [mix_round_cons]
      by_cases hc : idx < input.length ∧ buf.getD ((l + r) / 2) 0 = 0
      · rw [if_pos hc]
        obtain ⟨M, hMperm, hMchain, hMhead, hMlast, hMfresh, hMsorted⟩ :=
          ihN (r :: rest) (by simpa using Nat.le_of_succ_le_succ hsl)
            (buf.set ((l + r) / 2) (input.getD idx 0)) (idx + 1) htail
        obtain ⟨M', rfl⟩ : ∃ M', M = r :: M' := by
          cases M with
          | nil => simp at hMhead
          | cons m0 M' =>
            simp only [List.head?_cons, List.head?] at hMhead
            exact ⟨M', by rw [Option.some_inj.mp hMhead]⟩
        refine ⟨l :: (l + r) / 2 :: r :: M', ?_, ?_, rfl, ?_, ?_, ?_⟩
        · exact ((hMperm.cons ((l + r) / 2)).trans List.perm_middle.symm).cons l
        · rw [List.chain'_cons]
          refine ⟨⟨e', by omega, hmid⟩, ?_⟩
          rw [List.chain'_cons]
          exact ⟨⟨e', by omega, by omega⟩, hMchain⟩
        · rw [List.getLast?_cons_cons, List.getLast?_cons_cons, hlast_eq]
          exact hMlast
        · intro p hp
          rcases List.mem_cons.mp hp with rfl | hp2
          · refine ⟨?_, ?_, ?_⟩
            · intro hmem
              rcases List.mem_cons.mp hmem with h1 | hmem2
              · omega
              rcases List.mem_cons.mp hmem2 with h1 | hmem3
              · omega
              · exact absurd (hrestgt _ hmem3) (by omega)
            · intro a ha
              simp only [List.head?_cons, Option.some_inj] at ha
              omega
            · intro z hz
              rw [hlast_eq] at hz
              have := hlastr z hz
              omega
          · obtain ⟨hnotin, hlow, hhigh⟩ := hMfresh p hp2
            have hrp : r < p := by
              have := hlow r rfl
              omega
            refine ⟨?_, ?_, ?_⟩
            · intro hmem
              rcases List.mem_cons.mp hmem with h1 | hmem2
              · omega
              · exact hnotin hmem2
            · intro a ha
              simp only [List.head?_cons, Option.some_inj] at ha
              omega
            · intro z hz
              rw [hlast_eq] at hz
              exact hhigh z hz
        · rw [List.sorted_cons]
          refine ⟨?_, hMsorted⟩
          intro b hb
          have := (hMfresh b hb).2.1 r rfl
          omega
      · rw [if_neg hc]
        obtain ⟨M, hMperm, hMchain, hMhead, hMlast, hMfresh, hMsorted⟩ :=
          ihN (r :: rest) (by simpa using Nat.le_of_succ_le_succ hsl) buf idx htail
        obtain ⟨M', rfl⟩ : ∃ M', M = r :: M' := by
          cases M with
          | nil => simp at hMhead
          | cons m0 M' =>
            simp only [List.head?_cons, List.head?] at hMhead
            exact ⟨M', by rw [Option.some_inj.mp hMhead]⟩
        refine ⟨l :: r :: M', hMperm.cons l, ?_, rfl, ?_, ?_, hMsorted⟩
        · rw [List.chain'_cons]
          exact ⟨⟨e' + 1, by omega, hre⟩, hMchain⟩
        · rw [List.getLast?_cons_cons, hlast_eq]
          exact hMlast
        · intro p hp
          obtain ⟨hnotin, hlow, hhigh⟩ := hMfresh p hp
          have hrp : r < p := by
            have := hlow r rfl
            omega
          refine ⟨?_, ?_, ?_⟩
          · intro hmem
            rcases List.mem_cons.mp hmem with h1 | hmem2
            · omega
            · exact hnotin hmem2
          · intro a ha
            simp only [List.head?_cons, Option.some_inj] at ha
            omega
          · intro z hz
            rw [hlast_eq] at hz
            exact hhigh z hz

/-- Loop specification: with fuel `n` and an occupied list whose gaps
are powers of two at least `2^n`, every recorded occupied list is
strictly sorted with the same endpoints as the initial one, the
positions placed across all rounds are pairwise distinct, and every
placed position is fresh (absent from the initial occupied list and
strictly between its endpoints). -/
theorem mix_rounds_traced_spec (input : List Nat) :
    ∀ (n : Nat) (buf : List Nat) (idx : Nat) (occ : List Nat),
      List.Chain' (gapProp n) occ →
      (∀ o ∈ (mix_rounds_traced input n buf idx occ).2.2,
          List.Sorted (· < ·) o ∧ o.head? = occ.head? ∧ o.getLast? = occ.getLast?)
      ∧ (mix_rounds_traced input n buf idx occ).2.1.flatten.Nodup
      ∧ (∀ p ∈ (mix_rounds_traced input n buf idx occ).2.1.flatten,
          p ∉ occ ∧ (∀ a, occ.head? = some a → a < p)
            ∧ (∀ z, occ.getLast? = some z → p < z)) := by
  intro n
  induction n with
  | zero =>
    intro buf idx occ hchain
    refine ⟨?_, ?_, ?_⟩ <;> simp [mix_rounds_traced]
  | succ n ih =>
    intro buf idx occ hchain
    obtain ⟨M, hMperm, hMchain, hMhead, hMlast, hMfresh, hMsorted⟩ :=
      mix_round_spec input (n + 1) (by omega) occ.length occ (le_refl _) buf idx hchain
    simp only [Nat.add_sub_cancel] at hMchain
    have hoccsorted : List.Sorted (· < ·) occ := chain_gapProp_sorted hchain
    have hnsnodup : (mix_round input buf idx occ).2.2.Nodup := sorted_lt_nodup hMsorted
    have hmemM : ∀ a ∈ occ ++ (mix_round input buf idx occ).2.2, a ∈ M := by
      intro a ha
      exact (hMperm.mem_iff).mpr ha
    simp only [mix_rounds_traced]
    split
    · refine ⟨?_, ?_, ?_⟩
      · intro o ho
        simp only [List.mem_singleton] at ho
        subst ho
        exact ⟨hoccsorted, rfl, rfl⟩
      · simpa using hnsnodup
      · intro p hp
        simp only [List.flatten, List.append_nil] at hp
        exact hMfresh p (by simpa using hp)
    · have hocc' : sortNat (occ ++ (mix_round input buf idx occ).2.2) = M :=
        sortNat_eq_of_sorted_perm _ M hMperm (sorted_lt_le (chain_gapProp_sorted hMchain))
      rw [hocc']
      obtain ⟨ih1, ih2, ih3⟩ :=
        ih (mix_round input buf idx occ).1 (mix_round input buf idx occ).2.1 M hMchain
      refine ⟨?_, ?_, ?_⟩
      · intro o ho
        rcases List.mem_cons.mp ho with rfl | ho2
        · exact ⟨hoccsorted, rfl, rfl⟩
        · obtain ⟨hso, hho, hlo⟩ := ih1 o ho2
          exact ⟨hso, hho.trans hMhead, hlo.trans hMlast⟩
      · rw [List.flatten_cons, List.nodup_append]
        refine ⟨hnsnodup, ih2, ?_⟩
        intro a ha hain
        have haM : a ∈ M := hmemM a (List.mem_append_right _ ha)
        exact (ih3 a hain).1 haM
      · intro p hp
        rw [List.flatten_cons, List.mem_append] at hp
        rcases hp with hp1 | hp2
        · exact hMfresh p hp1
        · obtain ⟨hnotM, hlowM, hhighM⟩ := ih3 p hp2
          refine ⟨?_, ?_, ?_⟩
          · intro hmem
            exact hnotM (hmemM p (List.mem_append_left _ hmem))
          · intro a ha
            exact hlowM a (by rw [hMhead]; exact ha)
          · intro z hz
            exact hhighM z (by rw [hMlast]; exact hz)

/-- The instrumented loop computes the same buffer as the plain loop. -/
theorem mix_rounds_traced_fst (input : List Nat) :
    ∀ (n : Nat) (buf : List Nat) (idx : Nat) (occ : List Nat),
      (mix_rounds_traced input n buf idx occ).1 = mix_rounds input n buf idx occ := by
  intro n
  induction n with
  | zero => intro buf idx occ; rfl
  | succ n ih =>
    intro buf idx occ
    simp only [mix_rounds_traced, mix_rounds]
    split
    · rfl
    · exact ih _ _ _

/-- The instrumented mixer computes the same buffer as `mix_bits`. -/
theorem mix_bits_traced_fst (input : List Nat) (steps : Nat) :
    (mix_bits_traced input steps).1 = mix_bits input steps := by
  unfold mix_bits_traced mix_bits
  split
  · rfl
  · exact mix_rounds_traced_fst input _ _ _ _

/-- Specialisation of `mix_rounds_traced_spec` to the initial occupied
list `[0, 2^k]` used by `_mix_bits` (with `k = steps - 1` and buffer
size `2^k + 1`). -/
theorem mix_rounds_traced_invariants (input : List Nat) (k : Nat) (buf : List Nat)
    (idx : Nat) :
    (∀ o ∈ (mix_rounds_traced input k buf idx [0, 2 ^ k]).2.2,
        List.Sorted (· < ·) o ∧ 0 ∈ o ∧ 2 ^ k ∈ o ∧ ∀ p ∈ o, p < 2 ^ k + 1)
    ∧ (0 :: 2 ^ k :: (mix_rounds_traced input k buf idx [0, 2 ^ k]).2.1.flatten).Nodup
    ∧ (∀ p ∈ (mix_rounds_traced input k buf idx [0, 2 ^ k]).2.1.flatten,
        0 < p ∧ p < 2 ^ k) := by
  have hchain : List.Chain' (gapProp k) [0, 2 ^ k] := by
    rw [List.chain'_cons]
    exact ⟨⟨k, le_refl _, by omega⟩, List.chain'_singleton _⟩
  obtain ⟨hoccs, hnodup, hfresh⟩ := mix_rounds_traced_spec input k buf idx [0, 2 ^ k] hchain
  have hpowpos : 1 ≤ 2 ^ k := Nat.one_le_two_pow
  have hl2 : ([0, 2 ^ k] : List Nat).getLast? = some (2 ^ k) := rfl
  have hh2 : ([0, 2 ^ k] : List Nat).head? = some 0 := rfl
  rw [hl2, hh2] at hoccs hfresh
  have hbounds : ∀ p ∈ (mix_rounds_traced input k buf idx [0, 2 ^ k]).2.1.flatten,
      0 < p ∧ p < 2 ^ k := by
    intro p hp
    obtain ⟨-, hlow, hhigh⟩ := hfresh p hp
    exact ⟨hlow 0 rfl, hhigh (2 ^ k) rfl⟩
  refine ⟨?_, ?_, hbounds⟩
  · intro o ho
    obtain ⟨hso, hho, hlo⟩ := hoccs o ho
    refine ⟨hso, mem_of_head?_self hho, List.mem_of_getLast?_eq_some hlo, ?_⟩
    intro p hp
    have := sorted_le_getLast hso hlo p hp
    omega
  · rw [List.nodup_cons, List.nodup_cons]
    refine ⟨?_, ?_, hnodup⟩
    · intro hmem
      rcases List.mem_cons.mp hmem with h1 | h2
      · omega
      · exact absurd (hbounds 0 h2).1 (by omega)
    · intro hmem
      exact absurd (hbounds (2 ^ k) hmem).2 (by omega)

/-- C5: for `steps ≥ 2`, every occupied-position list occurring in
`mix(bits, steps)` is strictly increasing, contained in `[0, m-1]`
(where `m = 2^(steps-1)+1`), and contains both 0 and `m-1`; all
positions filled across the rounds — the two initial slots and one slot
per placed bit — are pairwise distinct, so every bit is placed at a slot
that never previously received a bit and no placed bit is overwritten;
the instrumented run computes exactly the `mix_bits` buffer. -/
theorem mibis_filled_invariants (input : List Nat) (steps : Nat) (hsteps : 2 ≤ steps) :
    (mix_bits_traced input steps).1 = mix_bits input steps
    ∧ (∀ o ∈ (mix_bits_traced input steps).2.2,
        List.Sorted (· < ·) o ∧ 0 ∈ o ∧ 2 ^ (steps - 1) ∈ o
          ∧ ∀ p ∈ o, p < 2 ^ (steps - 1) + 1)
    ∧ (0 :: 2 ^ (steps - 1) :: (mix_bits_traced input steps).2.1.flatten).Nodup
    ∧ (∀ p ∈ (mix_bits_traced input steps).2.1.flatten,
        0 < p ∧ p < 2 ^ (steps - 1)) := by
  have hne1 : ¬ steps = 1 := by omega
  have hsub : 2 ^ (steps - 1) + 1 - 1 = 2 ^ (steps - 1) := Nat.add_sub_cancel _ _
  have hrepr : mix_bits_traced input steps
      = mix_rounds_traced input (steps - 1)
          (if 1 < input.length
            then (if 0 < input.length
              then (List.replicate (2 ^ (steps - 1) + 1) 0).set 0 (input.getD 0 0)
              else List.replicate (2 ^ (steps - 1) + 1) 0).set
                (2 ^ (steps - 1) + 1 - 1) (input.getD 1 0)
            else (if 0 < input.length
              then (List.replicate (2 ^ (steps - 1) + 1) 0).set 0 (input.getD 0 0)
              else List.replicate (2 ^ (steps - 1) + 1) 0))
          2 [0, 2 ^ (steps - 1) + 1 - 1] := by
    unfold mix_bits_traced
    rw [if_neg hne1]
  rw [hrepr, hsub]
  obtain ⟨h1, h2, h3⟩ := mix_rounds_traced_invariants input (steps - 1) _ 2
  exact ⟨(hrepr ▸ mix_bits_traced_fst input steps :), h1, h2, h3⟩

/-- Witness for `mibis_filled_invariants` on the worked 8-bit example. -/
theorem mibis_filled_invariants_witness :
    (mix_bits_traced [0, 1, 1, 0, 1, 1, 0, 1] 3).1 = mix_bits [0, 1, 1, 0, 1, 1, 0, 1] 3
    ∧ (∀ o ∈ (mix_bits_traced [0, 1, 1, 0, 1, 1, 0, 1] 3).2.2,
        List.Sorted (· < ·) o ∧ 0 ∈ o ∧ 2 ^ (3 - 1) ∈ o
          ∧ ∀ p ∈ o, p < 2 ^ (3 - 1) + 1)
    ∧ (0 :: 2 ^ (3 - 1) :: (mix_bits_traced [0, 1, 1, 0, 1, 1, 0, 1] 3).2.1.flatten).Nodup
    ∧ (∀ p ∈ (mix_bits_traced [0, 1, 1, 0, 1, 1, 0, 1] 3).2.1.flatten,
        0 < p ∧ p < 2 ^ (3 - 1)) :=
  mibis_filled_invariants [0, 1, 1, 0, 1, 1, 0, 1] 3 (by norm_num)

end TrngMibis
